import Mathlib

/-!
Shallow embedding of the mcp-nexus-cf worker core in Lean 4.

Strings from the JavaScript side are modelled as `List Char`, byte arrays
(`Uint8Array`) as `List Nat` with values below 256.  Randomness sources
(`crypto.getRandomValues`) are passed in explicitly as arguments.  Platform
primitives that the code calls (the WHATWG URL parser, the AES block cipher
underlying `crypto.subtle`'s AES-GCM) are parameters of the embedding; the
code of the repository itself — key-material decoding, the GCM mode
composition, masking, token generation, CORS origin selection, tool scoping,
rate-limit fallback — is translated directly.
-/

set_option maxRecDepth 100000

namespace MCPNexus

/-- Lowercase hexadecimal digit character for a value below 16, as produced
by JavaScript `Number.prototype.toString(16)` for a single digit. -/
def hexDigitChar (d : Nat) : Char :=
  if d < 10 then Char.ofNat (48 + d) else Char.ofNat (87 + d)

/-- JavaScript `b.toString(16).padStart(2, "0")` for a byte value `b < 256`. -/
def byteToHexPair (b : Nat) : List Char :=
  [hexDigitChar (b / 16), hexDigitChar (b % 16)]

/-- From `crypto.ts` `generateToken`: hex-encodes a list of random byte
values (the output of `crypto.getRandomValues(new Uint8Array(length))`,
passed in explicitly). -/
def generateToken (bytes : List Nat) : List Char :=
  bytes.flatMap byteToHexPair

/-- From `crypto.ts` `maskApiKey`: keys of length at most 12 are fully
masked; longer keys keep their first 4 and last 4 characters. -/
def maskApiKey (key : List Char) : List Char :=
  if key.length ≤ 12 then List.replicate key.length '*'
  else key.take 4 ++ List.replicate (key.length - 8) '*' ++ key.drop (key.length - 4)

/-- Modelled from the spec: the effective per-client rate limit is
`Identity.rateLimit` if present, else the configured global default per
client (the Durable Object rate limiter itself is not under `src/`; the
contract tests pin this as `tokenRateLimit ?? defaultLimit`). -/
def effectiveRateLimit (identityRateLimit : Option Nat) (globalDefault : Nat) : Nat :=
  identityRateLimit.getD globalDefault

/-- Identity resolved from a verified bearer token: client token id, the
optional allowed-tool list (absent means unrestricted) and the optional
per-token rate-limit override. -/
structure Identity where
  clientTokenId : List Char
  allowedTools : Option (List (List Char))
  rateLimit : Option Nat

/-- The single-quote character, written by code point. -/
def squoteChar : Char := Char.ofNat 39

/-- The double-quote character, written by code point. -/
def dquoteChar : Char := Char.ofNat 34

/-- JavaScript `Array.prototype.join(", ")`. -/
def joinCommaSpace : List (List Char) → List Char
  | [] => []
  | [t] => t
  | t :: rest => t ++ ", ".data ++ joinCommaSpace rest

/-- Result of the tool-scoping check: allowed, or a scope error carrying
the requested tool, the allowed-tool list and the rendered message. -/
inductive AuthzResult where
  | allowed : AuthzResult
  | scopeError (requestedTool : List Char) (allowedToolsList : List (List Char))
      (message : List Char) : AuthzResult
  deriving DecidableEq

/-- Modelled from the spec: the scope-error message pinned by the contract
tests (tool scoping lives in the MCP handler, which is not under `src/`). -/
def scopeErrorMessage (tool : List Char) (tools : List (List Char)) : List Char :=
  "Tool ".data ++ [squoteChar] ++ tool ++ [squoteChar] ++
    " is not allowed for this token. Allowed tools: ".data ++ joinCommaSpace tools

/-- Modelled from the spec: tool scoping — absent `allowedTools` allows every
tool; otherwise allow exactly the members of the list (case-sensitive string
equality), rejecting with a ScopeError carrying the tool and the list. -/
def authorizeTool (ident : Identity) (tool : List Char) : AuthzResult :=
  match ident.allowedTools with
  | none => .allowed
  | some tools =>
      if tool ∈ tools then .allowed
      else .scopeError tool tools (scopeErrorMessage tool tools)

/-- Interface to the WHATWG `URL` platform primitive used by `app.ts`:
`hostname` and `origin` of a parsed URL string, `none` when the `URL`
constructor throws. -/
structure UrlApi where
  hostname : List Char → Option (List Char)
  origin : List Char → Option (List Char)

/-- From `app.ts` `originHostname`: the hostname of a parsed origin, or
`none` when parsing throws. -/
def originHostname (api : UrlApi) (origin : List Char) : Option (List Char) :=
  api.hostname origin

/-- From `app.ts` `isLocalhostOrigin`. -/
def isLocalhostOrigin (api : UrlApi) (origin : List Char) : Bool :=
  originHostname api origin == some "localhost".data ||
  originHostname api origin == some "127.0.0.1".data

/-- From `app.ts`: the `allowedOrigins` set built by the `/admin/api/*`
middleware — the origin of `ADMIN_UI_URL` when that variable is set to a
non-empty string and parses; empty otherwise. -/
def adminAllowedOrigins (api : UrlApi) (adminUiUrl : Option (List Char)) :
    List (List Char) :=
  match adminUiUrl with
  | none => []
  | some u =>
      if u.isEmpty then []
      else
        match api.origin u with
        | none => []
        | some o => [o]

/-- From `app.ts`: the `cors` origin callback for `/admin/api/*`.  The
`origin` argument is the request Origin header (the empty list when the
header is absent); the result is the allowed origin to answer, or `none`
when the origin is rejected. -/
def adminCorsOrigin (api : UrlApi) (adminUiUrl : Option (List Char))
    (origin : List Char) : Option (List Char) :=
  if origin.isEmpty then some "*".data
  else if isLocalhostOrigin api origin then some origin
  else if origin ∈ adminAllowedOrigins api adminUiUrl then some origin
  else none

/-- JavaScript whitespace as matched by the regular expression class `\s`
and trimmed by `String.prototype.trim` (ASCII whitespace, NBSP, the unicode
space separators, line/paragraph separators, and the BOM). -/
def isJsWs (c : Char) : Bool :=
  (9 ≤ c.toNat && c.toNat ≤ 13) || c.toNat == 32 || c.toNat == 160 ||
  c.toNat == 5760 || (8192 ≤ c.toNat && c.toNat ≤ 8202) ||
  c.toNat == 8232 || c.toNat == 8233 || c.toNat == 8239 || c.toNat == 8287 ||
  c.toNat == 12288 || c.toNat == 65279

/-- JavaScript `String.prototype.trim`. -/
def jsTrim (s : List Char) : List Char :=
  (((s.dropWhile isJsWs).reverse).dropWhile isJsWs).reverse

/-- From `crypto.ts` `decodeAes256KeyBytes`: strip one layer of matching
surrounding quotes (`raw.startsWith` / `raw.endsWith` with `slice(1, -1)`;
on the one-character string consisting of a quote, `slice(1, -1)` yields
the empty string, as does `(t.drop 1).dropLast`). -/
def stripMatchingQuotes (t : List Char) : List Char :=
  if (t.head? = some dquoteChar ∧ t.getLast? = some dquoteChar) ∨
      (t.head? = some squoteChar ∧ t.getLast? = some squoteChar) then
    (t.drop 1).dropLast
  else t

/-- From `crypto.ts`: `unquoted.replace(/\s+/g, "")` composed with the
surrounding-quote stripping of the trimmed raw material. -/
def normalizeKeyMaterial (s : List Char) : List Char :=
  (stripMatchingQuotes (jsTrim s)).filter (fun c => !isJsWs c)

/-- Character class `[0-9a-fA-F]`. -/
def isHexDigit (c : Char) : Bool :=
  (48 ≤ c.toNat && c.toNat ≤ 57) || (97 ≤ c.toNat && c.toNat ≤ 102) ||
  (65 ≤ c.toNat && c.toNat ≤ 70)

/-- Strip a literal lowercase `0x` prefix when present. -/
def strip0x (s : List Char) : List Char :=
  match s with
  | c1 :: c2 :: rest => if c1 = '0' ∧ c2 = 'x' then rest else s
  | _ => s

/-- From `crypto.ts`: the test `/^(?:0x)?[0-9a-fA-F]\x7b64\x7d$/.test(normalized)`
(`x` is not a hex digit, so the optional-prefix alternation is equivalent to
stripping a literal `0x` and checking for exactly 64 hex characters). -/
def hexKeyTest (s : List Char) : Bool :=
  (strip0x s).length == 64 && (strip0x s).all isHexDigit

/-- JavaScript `Number.parseInt(hexPair, 16)` applied pairwise, as in the
hex branch of `decodeAes256KeyBytes`. -/
def hexDigitVal (c : Char) : Nat :=
  if 48 ≤ c.toNat ∧ c.toNat ≤ 57 then c.toNat - 48
  else if 97 ≤ c.toNat ∧ c.toNat ≤ 102 then c.toNat - 87
  else if 65 ≤ c.toNat ∧ c.toNat ≤ 70 then c.toNat - 55
  else 0

/-- The 32-iteration loop of the hex branch: each pair of hex characters
becomes one byte. -/
def hexPairsToBytes : List Char → List Nat
  | c1 :: c2 :: rest => (hexDigitVal c1 * 16 + hexDigitVal c2) :: hexPairsToBytes rest
  | _ => []

/-- From `crypto.ts`: the global replacement of `-` by `+` and of `_` by
`/` turning base64url into standard base64. -/
def b64UrlToStd (c : Char) : Char :=
  if c = '-' then '+' else if c = '_' then '/' else c

/-- Value of a standard base64 alphabet character, `none` outside the
alphabet (including `=`). -/
def b64CharVal (c : Char) : Option Nat :=
  if 65 ≤ c.toNat ∧ c.toNat ≤ 90 then some (c.toNat - 65)
  else if 97 ≤ c.toNat ∧ c.toNat ≤ 122 then some (c.toNat - 71)
  else if 48 ≤ c.toNat ∧ c.toNat ≤ 57 then some (c.toNat + 4)
  else if c = '+' then some 62
  else if c = '/' then some 63
  else none

/-- WHATWG forgiving-base64: when the length is a multiple of 4, remove up
to two trailing `=` characters. -/
def dropTrailingEq (s : List Char) : List Char :=
  match s.reverse with
  | c1 :: c2 :: rest =>
      if c1 = '=' then (if c2 = '=' then rest.reverse else (c2 :: rest).reverse) else s
  | [c1] => if c1 = '=' then [] else s
  | [] => s

/-- Group-of-four base64 decoding with the forgiving-base64 treatment of a
final group of two or three characters (discarding the leftover bits); any
character outside the alphabet fails. -/
def b64Quads : List Char → Option (List Nat)
  | [] => some []
  | [_] => none
  | [c1, c2] => do
      let v1 ← b64CharVal c1
      let v2 ← b64CharVal c2
      pure [v1 * 4 + v2 / 16]
  | [c1, c2, c3] => do
      let v1 ← b64CharVal c1
      let v2 ← b64CharVal c2
      let v3 ← b64CharVal c3
      pure [v1 * 4 + v2 / 16, v2 % 16 * 16 + v3 / 4]
  | c1 :: c2 :: c3 :: c4 :: rest => do
      let v1 ← b64CharVal c1
      let v2 ← b64CharVal c2
      let v3 ← b64CharVal c3
      let v4 ← b64CharVal c4
      let tail ← b64Quads rest
      pure ([v1 * 4 + v2 / 16, v2 % 16 * 16 + v3 / 4, v3 % 4 * 64 + v4] ++ tail)

/-- The `atob` platform primitive on whitespace-free input (the caller has
already removed every whitespace character): WHATWG forgiving-base64
decode, yielding byte values. -/
def atobModel (s : List Char) : Option (List Nat) :=
  let t := if s.length % 4 == 0 then dropTrailingEq s else s
  if t.length % 4 == 1 then none else b64Quads t

/-- From `crypto.ts`: the base64/base64url branch of `decodeAes256KeyBytes`
on the normalized material — swap the url-safe alphabet to standard, reject
length 1 mod 4, pad with `=` to a multiple of 4, and `atob`. -/
def b64Pipeline (t : List Char) : Option (List Nat) :=
  let b := t.map b64UrlToStd
  if b.length % 4 == 1 then none
  else atobModel (b ++ List.replicate ((4 - b.length % 4) % 4) '=')

/-- Error kinds of the embedded crypto module: `configError` models the
`Invalid KEY_ENCRYPTION_SECRET` errors thrown while decoding key material,
`decryptionError` the failure of AES-GCM tag verification. -/
inductive KeyError where
  | configError : KeyError
  | decryptionError : KeyError
  deriving DecidableEq

/-- From `crypto.ts` `decodeAes256KeyBytes` on normalized material: the hex
branch decodes 64 hex characters to 32 bytes; otherwise the base64 branch
must succeed and yield exactly 32 bytes. -/
def keyBytesOfNormalized (t : List Char) : Except KeyError (List Nat) :=
  if hexKeyTest t then .ok (hexPairsToBytes (strip0x t))
  else
    match b64Pipeline t with
    | none => .error .configError
    | some bytes => if bytes.length = 32 then .ok bytes else .error .configError

/-- From `crypto.ts` `decodeAes256KeyBytes` (the spec's
`decodeSymmetricKey`): trim, reject empty, strip one layer of matching
quotes, remove internal whitespace, then decode hex or base64/base64url. -/
def decodeAes256KeyBytes (keyEncoded : List Char) : Except KeyError (List Nat) :=
  let raw := jsTrim keyEncoded
  if raw.isEmpty then .error .configError
  else keyBytesOfNormalized (normalizeKeyMaterial keyEncoded)

/-- Lowercase hex encoding of a byte list (the canonical hex representation
of a key, e.g. the output of `Buffer.toString("hex")`). -/
def hexEncodeBytes (bytes : List Nat) : List Char :=
  bytes.flatMap byteToHexPair

/-- Standard base64 alphabet character for a 6-bit value. -/
def b64StdChar (v : Nat) : Char :=
  if v < 26 then Char.ofNat (65 + v)
  else if v < 52 then Char.ofNat (71 + v)
  else if v < 62 then Char.ofNat (v - 4)
  else if v = 62 then '+' else '/'

/-- Canonical unpadded standard base64 encoding of a byte list. -/
def b64EncodeNoPadBytes : List Nat → List Char
  | [] => []
  | [b1] => [b64StdChar (b1 / 4), b64StdChar (b1 % 4 * 16)]
  | [b1, b2] => [b64StdChar (b1 / 4), b64StdChar (b1 % 4 * 16 + b2 / 16),
      b64StdChar (b2 % 16 * 4)]
  | b1 :: b2 :: b3 :: rest =>
      b64StdChar (b1 / 4) :: b64StdChar (b1 % 4 * 16 + b2 / 16) ::
      b64StdChar (b2 % 16 * 4 + b3 / 64) :: b64StdChar (b3 % 64) ::
      b64EncodeNoPadBytes rest

/-- Canonical padded standard base64 encoding (the output of
`Buffer.toString("base64")`). -/
def b64EncodeBytes (bytes : List Nat) : List Char :=
  b64EncodeNoPadBytes bytes ++
    List.replicate ((4 - (b64EncodeNoPadBytes bytes).length % 4) % 4) '='

/-- Swap a standard base64 character to the url-safe alphabet. -/
def b64UrlOfStd (c : Char) : Char :=
  if c = '+' then '-' else if c = '/' then '_' else c

/-- Padded base64url encoding of a byte list. -/
def b64UrlEncodeBytes (bytes : List Nat) : List Char :=
  (b64EncodeBytes bytes).map b64UrlOfStd

/-- Unpadded base64url encoding of a byte list. -/
def b64UrlEncodeNoPadBytes (bytes : List Nat) : List Char :=
  (b64EncodeNoPadBytes bytes).map b64UrlOfStd

/-- UTF-8 encoding of a unicode scalar value (the TextEncoder platform
primitive used by `crypto.ts`). -/
def utf8EncodeChar (c : Nat) : List Nat :=
  if c < 128 then [c]
  else if c < 2048 then [192 + c / 64, 128 + c % 64]
  else if c < 65536 then [224 + c / 4096, 128 + c / 64 % 64, 128 + c % 64]
  else [240 + c / 262144, 128 + c / 4096 % 64, 128 + c / 64 % 64, 128 + c % 64]

/-- `TextEncoder.encode`: the UTF-8 bytes of a string. -/
def utf8Encode (s : List Char) : List Nat :=
  s.flatMap (fun c => utf8EncodeChar c.toNat)

/-- `TextDecoder.decode` in its default non-fatal mode: scalar values of a
byte stream, emitting U+FFFD for invalid sequences, never failing. -/
def utf8DecodeAux : List Nat → List Nat
  | [] => []
  | b0 :: rest =>
    if b0 < 128 then b0 :: utf8DecodeAux rest
    else if 194 ≤ b0 ∧ b0 ≤ 223 then
      match rest with
      | [] => [65533]
      | b1 :: r =>
        if 128 ≤ b1 ∧ b1 ≤ 191 then ((b0 - 192) * 64 + (b1 - 128)) :: utf8DecodeAux r
        else 65533 :: utf8DecodeAux (b1 :: r)
    else if 224 ≤ b0 ∧ b0 ≤ 239 then
      match rest with
      | [] => [65533]
      | b1 :: r1 =>
        if (if b0 = 224 then 160 else 128) ≤ b1 ∧ b1 ≤ (if b0 = 237 then 159 else 191) then
          match r1 with
          | [] => [65533]
          | b2 :: r2 =>
            if 128 ≤ b2 ∧ b2 ≤ 191 then
              ((b0 - 224) * 4096 + (b1 - 128) * 64 + (b2 - 128)) :: utf8DecodeAux r2
            else 65533 :: utf8DecodeAux (b2 :: r2)
        else 65533 :: utf8DecodeAux (b1 :: r1)
    else if 240 ≤ b0 ∧ b0 ≤ 244 then
      match rest with
      | [] => [65533]
      | b1 :: r1 =>
        if (if b0 = 240 then 144 else 128) ≤ b1 ∧ b1 ≤ (if b0 = 244 then 143 else 191) then
          match r1 with
          | [] => [65533]
          | b2 :: r2 =>
            if 128 ≤ b2 ∧ b2 ≤ 191 then
              match r2 with
              | [] => [65533]
              | b3 :: r3 =>
                if 128 ≤ b3 ∧ b3 ≤ 191 then
                  ((b0 - 240) * 262144 + (b1 - 128) * 4096 + (b2 - 128) * 64 + (b3 - 128)) ::
                    utf8DecodeAux r3
                else 65533 :: utf8DecodeAux (b3 :: r3)
            else 65533 :: utf8DecodeAux (b2 :: r2)
        else 65533 :: utf8DecodeAux (b1 :: r1)
    else 65533 :: utf8DecodeAux rest
termination_by l => l.length

/-- `TextDecoder.decode`: the characters of a byte stream. -/
def utf8DecodeChars (bytes : List Nat) : List Char :=
  (utf8DecodeAux bytes).map Char.ofNat

/-- Force a byte list to the 16-byte shape of an AES block (zero padded,
truncated); the AES block primitive always produces this shape. -/
def fix16 (l : List Nat) : List Nat := (l ++ List.replicate 16 0).take 16

/-- Big-endian byte interpretation of a block as a 128-bit value. -/
def bytesToNat (l : List Nat) : Nat := l.foldl (fun acc b => acc * 256 + b % 256) 0

/-- Big-endian 16-byte representation of a 128-bit value. -/
def natToBytes16 (n : Nat) : List Nat :=
  (List.range 16).map (fun i => n / 256 ^ (15 - i) % 256)

/-- Big-endian 8-byte representation of a 64-bit value. -/
def natToBytes8 (n : Nat) : List Nat :=
  (List.range 8).map (fun i => n / 256 ^ (7 - i) % 256)

/-- Big-endian 4-byte counter (the last 32 bits of a GCM counter block). -/
def be32 (n : Nat) : List Nat :=
  [n / 16777216 % 256, n / 65536 % 256, n / 256 % 256, n % 256]

/-- The GCM reduction constant R: bits 11100001 followed by 120 zero bits
in the GCM bit ordering. -/
def gfR : Nat := 0xE1000000000000000000000000000000

/-- The 128 shift-and-reduce steps of GCM GF(2^128) multiplication. -/
def gfMulAux : Nat → Nat → Nat → Nat → Nat
  | 0, _, _, z => z
  | fuel + 1, x, v, z =>
      gfMulAux fuel (x * 2 % 2 ^ 128)
        (if v % 2 = 1 then v / 2 ^^^ gfR else v / 2)
        (if x.testBit 127 then z ^^^ v else z)

/-- Multiplication in GF(2^128) with the GCM bit ordering (NIST SP
800-38D), on 128-bit values encoded big-endian. -/
def gfMul (x y : Nat) : Nat := gfMulAux 128 x y 0

/-- The GHASH fold over a list of 128-bit blocks. -/
def ghashBlocks (h : Nat) : List Nat → Nat → Nat
  | [], y => y
  | b :: rest, y => ghashBlocks h rest (gfMul (y ^^^ b) h)

/-- Split a byte list into zero-padded 16-byte blocks as 128-bit values. -/
def toBlocks (l : List Nat) : List Nat :=
  if h : l = [] then []
  else bytesToNat (fix16 (l.take 16)) :: toBlocks (l.drop 16)
termination_by l.length
decreasing_by
  simp only [List.length_drop]
  have := List.length_pos.mpr h
  omega

/-- The GCM CTR keystream for a 12-byte nonce: counter blocks
`nonce || be32 (2 + i)` (the counter J0+1 onwards, J0 = nonce || 0^31 1),
truncated to the requested byte count. -/
def gcmKeystream (E : List Nat → List Nat) (nonce : List Nat) (n : Nat) : List Nat :=
  ((List.range (n / 16 + 1)).flatMap (fun i => fix16 (E (nonce ++ be32 (2 + i))))).take n

/-- Byte-wise exclusive or. -/
def xorBytes (a b : List Nat) : List Nat := List.zipWith (fun x y => x ^^^ y) a b

/-- The 16-byte GCM authentication tag over a ciphertext with empty
additional data: `E(J0) xor GHASH_H(pad(C) || len64(A) || len64(C))`. -/
def gcmTag (E : List Nat → List Nat) (nonce ct : List Nat) : List Nat :=
  xorBytes (fix16 (E (nonce ++ be32 1)))
    (natToBytes16 (ghashBlocks (bytesToNat (fix16 (E (List.replicate 16 0))))
      (toBlocks ct ++ [bytesToNat (natToBytes8 0 ++ natToBytes8 (ct.length * 8))]) 0))

/-- `crypto.subtle.encrypt` with AES-GCM (128-bit tag, no additional data),
over an abstract keyed block-cipher primitive `E`: the ciphertext is the
plaintext xored with the CTR keystream, followed by the tag. -/
def aesGcmSeal (E : List Nat → List Nat) (nonce pt : List Nat) : List Nat :=
  xorBytes pt (gcmKeystream E nonce pt.length) ++
    gcmTag E nonce (xorBytes pt (gcmKeystream E nonce pt.length))

/-- `crypto.subtle.decrypt` with AES-GCM: fails (OperationError) when the
data is shorter than the 16-byte tag or the recomputed tag differs from the
stored one; otherwise returns the xor of the ciphertext part with the
keystream. -/
def aesGcmOpen (E : List Nat → List Nat) (nonce data : List Nat) : Option (List Nat) :=
  if data.length < 16 then none
  else if gcmTag E nonce (data.take (data.length - 16)) =
      data.drop (data.length - 16) then
    some (xorBytes (data.take (data.length - 16))
      (gcmKeystream E nonce (data.take (data.length - 16)).length))
  else none

/-- From `crypto.ts` `encrypt`: decode the key material (`importKey`),
generate a 12-byte nonce (passed in explicitly, the output of
`crypto.getRandomValues(new Uint8Array(12))`), seal the UTF-8 bytes of the
plaintext, and return `nonce || ciphertext-with-tag`.  `E` is the AES-256
block-cipher platform primitive, taking the 32-byte key and a block. -/
def encrypt (E : List Nat → List Nat → List Nat) (nonce : List Nat)
    (plaintext : String) (keyEncoded : List Char) : Except KeyError (List Nat) :=
  match decodeAes256KeyBytes keyEncoded with
  | .error e => .error e
  | .ok k => .ok (nonce ++ aesGcmSeal (E k) nonce (utf8Encode plaintext.data))

/-- From `crypto.ts` `decrypt`: decode the key material, split the data
into the first 12 bytes (IV) and the rest, open the AES-GCM blob and decode
the plaintext bytes as UTF-8. -/
def decrypt (E : List Nat → List Nat → List Nat) (data : List Nat)
    (keyEncoded : List Char) : Except KeyError String :=
  match decodeAes256KeyBytes keyEncoded with
  | .error e => .error e
  | .ok k =>
      match aesGcmOpen (E k) (data.take 12) (data.drop 12) with
      | none => .error .decryptionError
      | some pt => .ok (String.mk (utf8DecodeChars pt))

/-- Helper: each lowercase hex digit character is in the hex alphabet. -/
theorem hexDigitChar_mem (d : Nat) (h : d < 16) :
    hexDigitChar d ∈ "0123456789abcdef".data := by
  interval_cases d <;> decide

/-- C6: `maskApiKey` preserves the total length; inputs of length at most 12
are replaced by that many mask characters; longer inputs keep exactly the
first 4 and last 4 characters around a masked middle; in particular the two
concrete examples from the spec hold. -/
theorem maskApiKey_spec (key : List Char) :
    (maskApiKey key).length = key.length ∧
    (key.length ≤ 12 → maskApiKey key = List.replicate key.length '*') ∧
    (12 < key.length →
      maskApiKey key =
        key.take 4 ++ List.replicate (key.length - 8) '*' ++ key.drop (key.length - 4)) ∧
    maskApiKey "abcdefgh".data = List.replicate 8 '*' ∧
    maskApiKey "abcdefghijklmnop".data = "abcd".data ++ List.replicate 8 '*' ++ "mnop".data := by
  refine ⟨?_, ?_, ?_, by decide, by decide⟩
  · by_cases h : key.length ≤ 12
    · simp [maskApiKey, h]
    · simp only [maskApiKey, if_neg h, List.length_append, List.length_take,
        List.length_replicate, List.length_drop]
      omega
  · intro h; simp [maskApiKey, h]
  · intro h; simp [maskApiKey, Nat.not_le.mpr h]

/-- C6 witness: the long concrete example, obtained from `maskApiKey_spec`. -/
theorem maskApiKey_spec_witness :
    12 < ("abcdefghijklmnop".data).length ∧
    maskApiKey "abcdefghijklmnop".data =
      ("abcdefghijklmnop".data).take 4 ++
        List.replicate (("abcdefghijklmnop".data).length - 8) '*' ++
        ("abcdefghijklmnop".data).drop (("abcdefghijklmnop".data).length - 4) :=
  ⟨by decide, (maskApiKey_spec "abcdefghijklmnop".data).2.2.1 (by decide)⟩

/-- C9: for byte values below 256, `generateToken` yields exactly two
lowercase hex characters per input byte — so `generateToken` on `n` random
bytes is a `2*n`-character lowercase-hex string (64 characters for the
default 32-byte call). -/
theorem generateToken_spec (bytes : List Nat) (h : ∀ b ∈ bytes, b < 256) :
    (generateToken bytes).length = 2 * bytes.length ∧
    ∀ c ∈ generateToken bytes, c ∈ "0123456789abcdef".data := by
  induction bytes with
  | nil => simp [generateToken]
  | cons b rest ih =>
      have hb : b < 256 := h b (by simp)
      have hrest : ∀ x ∈ rest, x < 256 := fun x hx => h x (by simp [hx])
      obtain ⟨ihlen, ihmem⟩ := ih hrest
      constructor
      · simp only [generateToken, List.flatMap_cons, List.length_append] at ihlen ⊢
        simp [byteToHexPair, ihlen]; omega
      · intro c hc
        simp only [generateToken, List.flatMap_cons, List.mem_append] at hc
        rcases hc with hc | hc
        · simp only [byteToHexPair, List.mem_cons, List.not_mem_nil, or_false] at hc
          rcases hc with rfl | rfl
          · exact hexDigitChar_mem _ (by omega)
          · exact hexDigitChar_mem _ (by omega)
        · exact ihmem c hc

/-- C9 witness: three concrete bytes give a 6-character token. -/
theorem generateToken_spec_witness :
    (∀ b ∈ [0, 171, 255], b < 256) ∧
    (generateToken [0, 171, 255]).length = 2 * [0, 171, 255].length :=
  ⟨by decide, (generateToken_spec [0, 171, 255] (by decide)).1⟩

/-- C3: the effective per-client limit is the identity's override when
present (100 stays 100 whatever the default) and the global default when
absent (null with default 60 gives 60). -/
theorem effectiveRateLimit_spec :
    effectiveRateLimit none 60 = 60 ∧
    (∀ d, effectiveRateLimit (some 100) d = 100) ∧
    (∀ r d, effectiveRateLimit (some r) d = r) ∧
    (∀ d, effectiveRateLimit none d = d) :=
  ⟨rfl, fun _ => rfl, fun _ _ => rfl, fun _ => rfl⟩

/-- C2: absent `allowedTools` allows everything; with a list present the
request is allowed iff the requested name is a member (exact string
equality); rejection produces a scope error carrying the tool and the full
list, whose message contains both; and the concrete scenario with
`allowedTools = [tavily_search]` and request `brave_web_search` yields a
scope error whose message contains "not allowed" and the allowed list. -/
theorem authorizeTool_spec (ident : Identity) (tool : List Char) :
    (ident.allowedTools = none → authorizeTool ident tool = .allowed) ∧
    (∀ ts, ident.allowedTools = some ts →
      ((authorizeTool ident tool = .allowed) ↔ tool ∈ ts) ∧
      (tool ∉ ts →
        authorizeTool ident tool = .scopeError tool ts (scopeErrorMessage tool ts) ∧
        tool <:+: scopeErrorMessage tool ts ∧
        joinCommaSpace ts <:+: scopeErrorMessage tool ts)) ∧
    authorizeTool ⟨"tok1".data, some ["tavily_search".data], none⟩ "brave_web_search".data
      = .scopeError "brave_web_search".data ["tavily_search".data]
          (scopeErrorMessage "brave_web_search".data ["tavily_search".data]) ∧
    "not allowed".data <:+: scopeErrorMessage "brave_web_search".data ["tavily_search".data] ∧
    "tavily_search".data <:+: scopeErrorMessage "brave_web_search".data ["tavily_search".data] := by
  refine ⟨?_, ?_, by decide, by decide, by decide⟩
  · intro h; simp [authorizeTool, h]
  · intro ts hts
    constructor
    · constructor
      · intro hok
        by_contra hmem
        simp [authorizeTool, hts, hmem] at hok
      · intro hmem; simp [authorizeTool, hts, hmem]
    · intro hmem
      refine ⟨by simp [authorizeTool, hts, hmem], ?_, ?_⟩
      · exact ⟨"Tool ".data ++ [squoteChar],
          [squoteChar] ++ " is not allowed for this token. Allowed tools: ".data ++
            joinCommaSpace ts, by simp [scopeErrorMessage]⟩
      · exact ⟨"Tool ".data ++ [squoteChar] ++ tool ++ [squoteChar] ++
          " is not allowed for this token. Allowed tools: ".data, [],
          by simp [scopeErrorMessage]⟩

/-- C2 witness: an identity with no allowed-tool list allows any tool. -/
theorem authorizeTool_spec_witness :
    authorizeTool ⟨"tok2".data, none, none⟩ "tavily_search".data = .allowed :=
  (authorizeTool_spec ⟨"tok2".data, none, none⟩ "tavily_search".data).1 rfl

/-- C10: the admin-API CORS origin callback answers `*` when the Origin
header is absent; allows any origin whose URL hostname is exactly
`localhost` or `127.0.0.1` whatever the `ADMIN_UI_URL` configuration;
allows the origin of a validly configured `ADMIN_UI_URL`; and rejects every
other origin — in particular every origin when `ADMIN_UI_URL` is unset,
empty, or unparsable. -/
theorem adminCorsOrigin_spec (api : UrlApi) (adminUiUrl : Option (List Char))
    (origin : List Char) :
    (origin = [] → adminCorsOrigin api adminUiUrl origin = some "*".data) ∧
    (origin ≠ [] →
      api.hostname origin = some "localhost".data ∨
        api.hostname origin = some "127.0.0.1".data →
      adminCorsOrigin api adminUiUrl origin = some origin) ∧
    (∀ u, origin ≠ [] → adminUiUrl = some u → u ≠ [] → api.origin u = some origin →
      adminCorsOrigin api adminUiUrl origin = some origin) ∧
    (origin ≠ [] → isLocalhostOrigin api origin = false →
      origin ∉ adminAllowedOrigins api adminUiUrl →
      adminCorsOrigin api adminUiUrl origin = none) ∧
    (adminUiUrl = none → adminAllowedOrigins api adminUiUrl = []) ∧
    (∀ u, adminUiUrl = some u → api.origin u = none →
      adminAllowedOrigins api adminUiUrl = []) := by
  refine ⟨?_, ?_, ?_, ?_, ?_, ?_⟩
  · intro h; simp [adminCorsOrigin, h]
  · intro h hloc
    have hl : isLocalhostOrigin api origin = true := by
      simp only [isLocalhostOrigin, originHostname, Bool.or_eq_true, beq_iff_eq]
      rcases hloc with hh | hh
      · exact Or.inl hh
      · exact Or.inr hh
    simp [adminCorsOrigin, List.isEmpty_iff, h, hl]
  · intro u h hu hune hpar
    have hmem : origin ∈ adminAllowedOrigins api adminUiUrl := by
      simp [adminAllowedOrigins, hu, List.isEmpty_iff, hune, hpar]
    by_cases hl : isLocalhostOrigin api origin
    · simp [adminCorsOrigin, List.isEmpty_iff, h, hl]
    · simp [adminCorsOrigin, List.isEmpty_iff, h, hl, hmem]
  · intro h hl hmem
    simp [adminCorsOrigin, List.isEmpty_iff, h, hl, hmem]
  · intro h; simp [adminAllowedOrigins, h]
  · intro u hu hpar; simp [adminAllowedOrigins, hu, hpar]

/-- C10 witness: with no URL parser results, no configured admin UI URL and
no Origin header, the callback answers `*`. -/
theorem adminCorsOrigin_spec_witness :
    adminCorsOrigin ⟨fun _ => none, fun _ => none⟩ none [] = some "*".data :=
  (adminCorsOrigin_spec ⟨fun _ => none, fun _ => none⟩ none []).1 rfl

/-- Helper: dropping leading whitespace does not change the whitespace-free
projection of a string. -/
theorem filter_nonWs_dropWhile (s : List Char) :
    (s.dropWhile isJsWs).filter (fun c => !isJsWs c) = s.filter (fun c => !isJsWs c) := by
  induction s with
  | nil => rfl
  | cons c t ih =>
      by_cases h : isJsWs c
      · simp [List.dropWhile_cons, h, List.filter_cons, ih]
      · simp [List.dropWhile_cons, h, List.filter_cons]

/-- Helper: trimming does not change the whitespace-free projection. -/
theorem filter_nonWs_jsTrim (s : List Char) :
    (jsTrim s).filter (fun c => !isJsWs c) = s.filter (fun c => !isJsWs c) := by
  unfold jsTrim
  rw [List.filter_reverse, filter_nonWs_dropWhile, List.filter_reverse,
    List.reverse_reverse, filter_nonWs_dropWhile]

/-- Helper: every character of the trimmed string is a character of the
string. -/
theorem mem_of_mem_jsTrim {c : Char} {s : List Char} (h : c ∈ jsTrim s) : c ∈ s := by
  unfold jsTrim at h
  rw [List.mem_reverse] at h
  have h2 := (List.dropWhile_sublist (l := (s.dropWhile isJsWs).reverse) isJsWs).subset h
  rw [List.mem_reverse] at h2
  exact (List.dropWhile_sublist isJsWs).subset h2

/-- Helper: a string whose characters are all non-whitespace is its own
trim. -/
theorem jsTrim_eq_self {s : List Char} (h : ∀ c ∈ s, isJsWs c = false) : jsTrim s = s := by
  have drop_eq : ∀ t : List Char, (∀ c ∈ t, isJsWs c = false) → t.dropWhile isJsWs = t := by
    intro t ht
    cases t with
    | nil => rfl
    | cons c r => simp [List.dropWhile_cons, ht c (by simp)]
  unfold jsTrim
  rw [drop_eq s h, drop_eq s.reverse (fun c hc => h c (List.mem_reverse.mp hc)),
    List.reverse_reverse]

/-- Helper: a string with no quote characters is unchanged by the
quote-stripping step. -/
theorem stripMatchingQuotes_eq_self {s : List Char}
    (h : ∀ c ∈ s, c ≠ dquoteChar ∧ c ≠ squoteChar) : stripMatchingQuotes s = s := by
  unfold stripMatchingQuotes
  rw [if_neg]
  rintro (⟨h1, _⟩ | ⟨h1, _⟩)
  · exact (h _ (List.mem_of_mem_head? h1)).1 rfl
  · exact (h _ (List.mem_of_mem_head? h1)).2 rfl

/-- Helper: the normalized key material of any string equals its
whitespace-free projection, provided that projection contains no quote
characters. -/
theorem normalizeKeyMaterial_of_filter {s r : List Char}
    (hr : s.filter (fun c => !isJsWs c) = r)
    (hq : ∀ c ∈ r, c ≠ dquoteChar ∧ c ≠ squoteChar) :
    normalizeKeyMaterial s = r := by
  have hnq : ∀ c ∈ jsTrim s, c ≠ dquoteChar ∧ c ≠ squoteChar := by
    intro c hc
    constructor
    · rintro rfl
      have hw : isJsWs dquoteChar = false := by decide
      have : dquoteChar ∈ r := by
        rw [← hr, ← filter_nonWs_jsTrim]
        simp only [List.mem_filter, hw]
        exact ⟨hc, rfl⟩
      exact (hq _ this).1 rfl
    · rintro rfl
      have hw : isJsWs squoteChar = false := by decide
      have : squoteChar ∈ r := by
        rw [← hr, ← filter_nonWs_jsTrim]
        simp only [List.mem_filter, hw]
        exact ⟨hc, rfl⟩
      exact (hq _ this).2 rfl
  unfold normalizeKeyMaterial
  rw [stripMatchingQuotes_eq_self hnq, filter_nonWs_jsTrim, hr]

/-- Helper: decoding any whitespace-padded variant of clean quote-free key
material reduces to decoding the normalized material. -/
theorem decodeAes256KeyBytes_of_filter {s r : List Char}
    (hr : s.filter (fun c => !isJsWs c) = r) (hne : r ≠ [])
    (hq : ∀ c ∈ r, c ≠ dquoteChar ∧ c ≠ squoteChar) :
    decodeAes256KeyBytes s = keyBytesOfNormalized r := by
  unfold decodeAes256KeyBytes
  rw [if_neg, normalizeKeyMaterial_of_filter hr hq]
  intro hempty
  rw [List.isEmpty_iff] at hempty
  apply hne
  rw [← hr, ← filter_nonWs_jsTrim, hempty]
  rfl

/-- Helper: decoding key material wrapped in one layer of matching quotes
reduces to decoding the wrapped material, for whitespace-free content. -/
theorem decodeAes256KeyBytes_quoted {r : List Char} {q : Char}
    (hws : ∀ c ∈ r, isJsWs c = false) (hq : q = dquoteChar ∨ q = squoteChar) :
    decodeAes256KeyBytes (q :: r ++ [q]) = keyBytesOfNormalized r := by
  have hqw : isJsWs q = false := by
    rcases hq with rfl | rfl <;> decide
  have htrim : jsTrim (q :: r ++ [q]) = q :: r ++ [q] := by
    apply jsTrim_eq_self
    intro c hc
    rcases List.mem_cons.mp hc with rfl | hc2
    · exact hqw
    rcases List.mem_append.mp hc2 with hc3 | hc3
    · exact hws c hc3
    · rcases List.mem_singleton.mp hc3 with rfl
      exact hqw
  have hstrip : stripMatchingQuotes (q :: r ++ [q]) = r := by
    unfold stripMatchingQuotes
    have hh : (q :: r ++ [q]).head? = some q := rfl
    have hl : (q :: r ++ [q]).getLast? = some q := by
      rw [show q :: r ++ [q] = (q :: r) ++ [q] by simp, List.getLast?_concat]
    rw [hh, hl, if_pos]
    · simp
    · rcases hq with rfl | rfl
      · exact Or.inl ⟨rfl, rfl⟩
      · exact Or.inr ⟨rfl, rfl⟩
  unfold decodeAes256KeyBytes normalizeKeyMaterial
  rw [htrim, hstrip, List.filter_eq_self.mpr (by intro c hc; simp [hws c hc]), if_neg]
  intro hempty
  simp at hempty

/-- Helper: `hexDigitVal` inverts `hexDigitChar` below 16. -/
theorem hexDigitVal_hexDigitChar (d : Nat) (h : d < 16) :
    hexDigitVal (hexDigitChar d) = d := by
  interval_cases d <;> decide

/-- Helper: characters of the lowercase hex alphabet are hex digits,
non-whitespace, non-quote, and distinct from the letter x. -/
theorem hex_alphabet_facts :
    ∀ c ∈ "0123456789abcdef".data, isHexDigit c = true ∧ isJsWs c = false ∧
      c ≠ dquoteChar ∧ c ≠ squoteChar ∧ c ≠ 'x' := by decide

/-- Helper: hex encoding yields two characters per byte. -/
theorem hexEncodeBytes_length (bytes : List Nat) :
    (hexEncodeBytes bytes).length = 2 * bytes.length := by
  induction bytes with
  | nil => rfl
  | cons b t ih =>
      simp only [hexEncodeBytes, List.flatMap_cons, List.length_append,
        List.length_cons, byteToHexPair] at ih ⊢
      simp only [List.length_nil]
      omega

/-- Helper: every character of a hex encoding of bytes is in the lowercase
hex alphabet. -/
theorem hexEncodeBytes_mem (bytes : List Nat) (h : ∀ b ∈ bytes, b < 256) :
    ∀ c ∈ hexEncodeBytes bytes, c ∈ "0123456789abcdef".data := by
  induction bytes with
  | nil => simp [hexEncodeBytes]
  | cons b t ih =>
      have hb : b < 256 := h b (by simp)
      intro c hc
      simp only [hexEncodeBytes, List.flatMap_cons, List.mem_append] at hc
      rcases hc with hc | hc
      · simp only [byteToHexPair, List.mem_cons, List.not_mem_nil, or_false] at hc
        rcases hc with rfl | rfl
        · exact hexDigitChar_mem _ (by omega)
        · exact hexDigitChar_mem _ (by omega)
      · exact ih (fun x hx => h x (by simp [hx])) c hc

/-- Helper: a hex encoding never starts with the two characters `0x`. -/
theorem strip0x_hexEncodeBytes (bytes : List Nat) (h : ∀ b ∈ bytes, b < 256) :
    strip0x (hexEncodeBytes bytes) = hexEncodeBytes bytes := by
  cases bytes with
  | nil => rfl
  | cons b t =>
      have hb : b < 256 := h b (by simp)
      have hx : hexDigitChar (b % 16) ≠ 'x' :=
        (hex_alphabet_facts _ (hexDigitChar_mem _ (by omega))).2.2.2.2
      simp only [hexEncodeBytes, List.flatMap_cons, byteToHexPair,
        List.cons_append, List.nil_append]
      simp only [strip0x]
      rw [if_neg]
      rintro ⟨_, h2⟩
      exact hx h2

/-- Helper: the hex-shape test accepts the hex encoding of 32 bytes. -/
theorem hexKeyTest_hexEncodeBytes (k : List Nat) (hlen : k.length = 32)
    (hb : ∀ b ∈ k, b < 256) : hexKeyTest (hexEncodeBytes k) = true := by
  unfold hexKeyTest
  rw [strip0x_hexEncodeBytes k hb]
  apply Bool.and_eq_true_iff.mpr
  constructor
  · rw [hexEncodeBytes_length, hlen]
    rfl
  · rw [List.all_eq_true]
    intro c hc
    exact (hex_alphabet_facts c (hexEncodeBytes_mem k hb c hc)).1

/-- Helper: pairwise hex decoding inverts hex encoding for byte values. -/
theorem hexPairsToBytes_hexEncodeBytes (bytes : List Nat)
    (h : ∀ b ∈ bytes, b < 256) :
    hexPairsToBytes (hexEncodeBytes bytes) = bytes := by
  induction bytes with
  | nil => rfl
  | cons b t ih =>
      have hb : b < 256 := h b (by simp)
      simp only [hexEncodeBytes, List.flatMap_cons, byteToHexPair,
        List.cons_append, List.nil_append]
      simp only [hexPairsToBytes]
      rw [hexDigitVal_hexDigitChar _ (by omega), hexDigitVal_hexDigitChar _ (by omega)]
      have harith : b / 16 * 16 + b % 16 = b := by omega
      rw [harith]
      exact congrArg (b :: ·) (ih (fun x hx => h x (by simp [hx])))

/-- Helper: the normalized-material decoder accepts the plain hex
representation of a 32-byte key. -/
theorem keyBytesOfNormalized_hex (k : List Nat) (hlen : k.length = 32)
    (hb : ∀ b ∈ k, b < 256) :
    keyBytesOfNormalized (hexEncodeBytes k) = .ok k := by
  unfold keyBytesOfNormalized
  rw [hexKeyTest_hexEncodeBytes k hlen hb]
  simp only [if_true]
  rw [strip0x_hexEncodeBytes k hb, hexPairsToBytes_hexEncodeBytes k hb]

/-- Helper: the normalized-material decoder accepts the 0x-prefixed hex
representation of a 32-byte key. -/
theorem keyBytesOfNormalized_hex0x (k : List Nat) (hlen : k.length = 32)
    (hb : ∀ b ∈ k, b < 256) :
    keyBytesOfNormalized ('0' :: 'x' :: hexEncodeBytes k) = .ok k := by
  have hstrip : strip0x ('0' :: 'x' :: hexEncodeBytes k) = hexEncodeBytes k := by
    simp [strip0x]
  have htest : hexKeyTest ('0' :: 'x' :: hexEncodeBytes k) = true := by
    unfold hexKeyTest
    rw [hstrip]
    apply Bool.and_eq_true_iff.mpr
    constructor
    · rw [hexEncodeBytes_length, hlen]
      rfl
    · rw [List.all_eq_true]
      intro c hc
      exact (hex_alphabet_facts c (hexEncodeBytes_mem k hb c hc)).1
  unfold keyBytesOfNormalized
  rw [htest]
  simp only [if_true]
  rw [hstrip, hexPairsToBytes_hexEncodeBytes k hb]

/-- Helper: `b64CharVal` inverts `b64StdChar` below 64. -/
theorem b64CharVal_b64StdChar : ∀ v < 64, b64CharVal (b64StdChar v) = some v := by decide

/-- Helper: facts about standard base64 alphabet characters and their
url-safe images — none is whitespace, a quote or a padding character, the
url-to-standard swap fixes standard characters, and it inverts the
standard-to-url swap. -/
theorem b64StdChar_facts : ∀ v < 64,
    isJsWs (b64StdChar v) = false ∧ b64StdChar v ≠ dquoteChar ∧
    b64StdChar v ≠ squoteChar ∧ b64StdChar v ≠ '=' ∧
    b64UrlToStd (b64StdChar v) = b64StdChar v ∧
    b64UrlToStd (b64UrlOfStd (b64StdChar v)) = b64StdChar v ∧
    isJsWs (b64UrlOfStd (b64StdChar v)) = false ∧
    b64UrlOfStd (b64StdChar v) ≠ dquoteChar ∧
    b64UrlOfStd (b64StdChar v) ≠ squoteChar := by decide

/-- Helper: every character of the unpadded base64 encoding of byte values
is a standard alphabet character. -/
theorem b64EncodeNoPadBytes_chars (bytes : List Nat) (h : ∀ b ∈ bytes, b < 256) :
    ∀ c ∈ b64EncodeNoPadBytes bytes, ∃ v, v < 64 ∧ c = b64StdChar v := by
  induction bytes using b64EncodeNoPadBytes.induct with
  | case1 => simp [b64EncodeNoPadBytes]
  | case2 b1 =>
      have h1 : b1 < 256 := h b1 (by simp)
      intro c hc
      simp only [b64EncodeNoPadBytes, List.mem_cons, List.not_mem_nil, or_false] at hc
      rcases hc with rfl | rfl
      · exact ⟨b1 / 4, by omega, rfl⟩
      · exact ⟨b1 % 4 * 16, by omega, rfl⟩
  | case3 b1 b2 =>
      have h1 : b1 < 256 := h b1 (by simp)
      have h2 : b2 < 256 := h b2 (by simp)
      intro c hc
      simp only [b64EncodeNoPadBytes, List.mem_cons, List.not_mem_nil, or_false] at hc
      rcases hc with rfl | rfl | rfl
      · exact ⟨b1 / 4, by omega, rfl⟩
      · exact ⟨b1 % 4 * 16 + b2 / 16, by omega, rfl⟩
      · exact ⟨b2 % 16 * 4, by omega, rfl⟩
  | case4 b1 b2 b3 rest ih =>
      have h1 : b1 < 256 := h b1 (by simp)
      have h2 : b2 < 256 := h b2 (by simp)
      have h3 : b3 < 256 := h b3 (by simp)
      intro c hc
      simp only [b64EncodeNoPadBytes, List.mem_cons] at hc
      rcases hc with rfl | rfl | rfl | rfl | hc
      · exact ⟨b1 / 4, by omega, rfl⟩
      · exact ⟨b1 % 4 * 16 + b2 / 16, by omega, rfl⟩
      · exact ⟨b2 % 16 * 4 + b3 / 64, by omega, rfl⟩
      · exact ⟨b3 % 64, by omega, rfl⟩
      · exact ih (fun x hx => h x (by simp [hx])) c hc

/-- Helper: length of the unpadded base64 encoding. -/
theorem b64EncodeNoPadBytes_length (bytes : List Nat) :
    (b64EncodeNoPadBytes bytes).length = (4 * bytes.length + 2) / 3 := by
  induction bytes using b64EncodeNoPadBytes.induct with
  | case1 => rfl
  | case2 b1 => simp [b64EncodeNoPadBytes]
  | case3 b1 b2 => simp [b64EncodeNoPadBytes]
  | case4 b1 b2 b3 rest ih =>
      simp only [b64EncodeNoPadBytes, List.length_cons, ih, List.length_cons]
      omega

/-- Helper: group-of-four decoding inverts the canonical unpadded base64
encoding of byte values. -/
theorem b64Quads_b64EncodeNoPadBytes (bytes : List Nat) (h : ∀ b ∈ bytes, b < 256) :
    b64Quads (b64EncodeNoPadBytes bytes) = some bytes := by
  induction bytes using b64EncodeNoPadBytes.induct with
  | case1 => rfl
  | case2 b1 =>
      have h1 : b1 < 256 := h b1 (by simp)
      simp only [b64EncodeNoPadBytes, b64Quads]
      rw [b64CharVal_b64StdChar _ (by omega : b1 / 4 < 64),
        b64CharVal_b64StdChar _ (by omega : b1 % 4 * 16 < 64)]
      simp
      omega
  | case3 b1 b2 =>
      have h1 : b1 < 256 := h b1 (by simp)
      have h2 : b2 < 256 := h b2 (by simp)
      simp only [b64EncodeNoPadBytes, b64Quads]
      rw [b64CharVal_b64StdChar _ (by omega : b1 / 4 < 64),
        b64CharVal_b64StdChar _ (by omega : b1 % 4 * 16 + b2 / 16 < 64),
        b64CharVal_b64StdChar _ (by omega : b2 % 16 * 4 < 64)]
      simp
      constructor
      · omega
      · omega
  | case4 b1 b2 b3 rest ih =>
      have h1 : b1 < 256 := h b1 (by simp)
      have h2 : b2 < 256 := h b2 (by simp)
      have h3 : b3 < 256 := h b3 (by simp)
      have hrest := ih (fun x hx => h x (by simp [hx]))
      simp only [b64EncodeNoPadBytes, b64Quads]
      rw [b64CharVal_b64StdChar _ (by omega : b1 / 4 < 64),
        b64CharVal_b64StdChar _ (by omega : b1 % 4 * 16 + b2 / 16 < 64),
        b64CharVal_b64StdChar _ (by omega : b2 % 16 * 4 + b3 / 64 < 64),
        b64CharVal_b64StdChar _ (by omega : b3 % 64 < 64), hrest]
      have e1 : b1 / 4 * 4 + (b1 % 4 * 16 + b2 / 16) / 16 = b1 := by omega
      have e2 : (b1 % 4 * 16 + b2 / 16) % 16 * 16 + (b2 % 16 * 4 + b3 / 64) / 4 = b2 := by
        omega
      have e3 : (b2 % 16 * 4 + b3 / 64) % 4 * 64 + b3 % 64 = b3 := by omega
      simp [e1, e2, e3]

/-- Helper: forgiving-base64 decoding of the canonical encoding of 32 bytes
followed by one padding character recovers the bytes. -/
theorem atobModel_encode_pad (k : List Nat) (hlen : k.length = 32)
    (hb : ∀ b ∈ k, b < 256) :
    atobModel (b64EncodeNoPadBytes k ++ ['=']) = some k := by
  have hrlen : (b64EncodeNoPadBytes k).length = 43 := by
    rw [b64EncodeNoPadBytes_length, hlen]
  cases hrev : (b64EncodeNoPadBytes k).reverse with
  | nil =>
      exfalso
      have := congrArg List.length hrev
      simp [hrlen] at this
  | cons c t =>
      have hc : c ∈ b64EncodeNoPadBytes k := by
        rw [← List.mem_reverse, hrev]
        simp
      obtain ⟨v, hv, rfl⟩ := b64EncodeNoPadBytes_chars k hb c hc
      have hcne : b64StdChar v ≠ '=' := (b64StdChar_facts v hv).2.2.2.1
      have hdrop : dropTrailingEq (b64EncodeNoPadBytes k ++ ['=']) =
          b64EncodeNoPadBytes k := by
        have hrev2 : (b64EncodeNoPadBytes k ++ ['=']).reverse =
            '=' :: b64StdChar v :: t := by
          rw [List.reverse_append, List.reverse_singleton, List.singleton_append, hrev]
        unfold dropTrailingEq
        rw [hrev2]
        show (if ('=' : Char) = '=' then
            if b64StdChar v = '=' then t.reverse else (b64StdChar v :: t).reverse
          else b64EncodeNoPadBytes k ++ ['=']) = b64EncodeNoPadBytes k
        rw [if_pos rfl, if_neg hcne, ← hrev, List.reverse_reverse]
      have hlen2 : (b64EncodeNoPadBytes k ++ ['=']).length = 44 := by
        simp [hrlen]
      simp only [atobModel]
      rw [hlen2, hdrop]
      norm_num
      rw [hrlen]
      norm_num
      exact b64Quads_b64EncodeNoPadBytes k hb

/-- Helper: the url-to-standard swap fixes strings of standard alphabet and
padding characters. -/
theorem map_urlToStd_of_std (X : List Char)
    (h : ∀ c ∈ X, (∃ v, v < 64 ∧ c = b64StdChar v) ∨ c = '=') :
    X.map b64UrlToStd = X := by
  induction X with
  | nil => rfl
  | cons c t ih =>
      have hc : b64UrlToStd c = c := by
        rcases h c (by simp) with ⟨v, hv, rfl⟩ | rfl
        · exact (b64StdChar_facts v hv).2.2.2.2.1
        · decide
      simp [hc, ih (fun x hx => h x (by simp [hx]))]

/-- Helper: the url-to-standard swap inverts the standard-to-url swap on
strings of standard alphabet and padding characters. -/
theorem map_urlRound_of_std (X : List Char)
    (h : ∀ c ∈ X, (∃ v, v < 64 ∧ c = b64StdChar v) ∨ c = '=') :
    (X.map b64UrlOfStd).map b64UrlToStd = X := by
  induction X with
  | nil => rfl
  | cons c t ih =>
      have hc : b64UrlToStd (b64UrlOfStd c) = c := by
        rcases h c (by simp) with ⟨v, hv, rfl⟩ | rfl
        · exact (b64StdChar_facts v hv).2.2.2.2.2.1
        · decide
      simp [hc, ih (fun x hx => h x (by simp [hx]))]

/-- Helper: the hex-shape test fails on strings whose length is neither 64
nor 66. -/
theorem hexKeyTest_eq_false_of_length (s : List Char)
    (h64 : s.length ≠ 64) (h66 : s.length ≠ 66) : hexKeyTest s = false := by
  have hst : (strip0x s).length = s.length ∨ (strip0x s).length + 2 = s.length := by
    match s with
    | [] => exact Or.inl rfl
    | [c] => exact Or.inl rfl
    | c1 :: c2 :: rest =>
        simp only [strip0x]
        by_cases hcond : c1 = '0' ∧ c2 = 'x'
        · rw [if_pos hcond]
          right
          simp
        · rw [if_neg hcond]
          left
          rfl
  unfold hexKeyTest
  have hne : (strip0x s).length ≠ 64 := by omega
  simp [hne]

/-- Helper: the padded base64 encoding of 32 bytes is the unpadded encoding
followed by one padding character. -/
theorem b64EncodeBytes_eq (k : List Nat) (hlen : k.length = 32) :
    b64EncodeBytes k = b64EncodeNoPadBytes k ++ ['='] := by
  unfold b64EncodeBytes
  rw [b64EncodeNoPadBytes_length, hlen]
  norm_num

/-- Helper: every character of the padded encoding is standard or padding. -/
theorem b64EncodePad_chars (k : List Nat) (hb : ∀ b ∈ k, b < 256) :
    ∀ c ∈ b64EncodeNoPadBytes k ++ ['='],
      (∃ v, v < 64 ∧ c = b64StdChar v) ∨ c = '=' := by
  intro c hc
  rcases List.mem_append.mp hc with hc | hc
  · exact Or.inl (b64EncodeNoPadBytes_chars k hb c hc)
  · exact Or.inr (List.mem_singleton.mp hc)

/-- Helper: the base64 branch accepts the unpadded standard encoding. -/
theorem b64Pipeline_encodeNoPad (k : List Nat) (hlen : k.length = 32)
    (hb : ∀ b ∈ k, b < 256) : b64Pipeline (b64EncodeNoPadBytes k) = some k := by
  have hchars : ∀ c ∈ b64EncodeNoPadBytes k,
      (∃ v, v < 64 ∧ c = b64StdChar v) ∨ c = '=' :=
    fun c hc => Or.inl (b64EncodeNoPadBytes_chars k hb c hc)
  have hrlen : (b64EncodeNoPadBytes k).length = 43 := by
    rw [b64EncodeNoPadBytes_length, hlen]
  simp only [b64Pipeline]
  rw [map_urlToStd_of_std _ hchars, hrlen]
  norm_num
  exact atobModel_encode_pad k hlen hb

/-- Helper: the base64 branch accepts the padded standard encoding. -/
theorem b64Pipeline_encodePad (k : List Nat) (hlen : k.length = 32)
    (hb : ∀ b ∈ k, b < 256) : b64Pipeline (b64EncodeBytes k) = some k := by
  rw [b64EncodeBytes_eq k hlen]
  have hrlen : (b64EncodeNoPadBytes k).length = 43 := by
    rw [b64EncodeNoPadBytes_length, hlen]
  have hlen2 : (b64EncodeNoPadBytes k ++ ['=']).length = 44 := by
    simp [hrlen]
  simp only [b64Pipeline]
  rw [map_urlToStd_of_std _ (b64EncodePad_chars k hb), hlen2]
  norm_num
  exact atobModel_encode_pad k hlen hb

/-- Helper: the base64 branch accepts the unpadded base64url encoding. -/
theorem b64Pipeline_urlNoPad (k : List Nat) (hlen : k.length = 32)
    (hb : ∀ b ∈ k, b < 256) : b64Pipeline (b64UrlEncodeNoPadBytes k) = some k := by
  have hchars : ∀ c ∈ b64EncodeNoPadBytes k,
      (∃ v, v < 64 ∧ c = b64StdChar v) ∨ c = '=' :=
    fun c hc => Or.inl (b64EncodeNoPadBytes_chars k hb c hc)
  have hrlen : (b64EncodeNoPadBytes k).length = 43 := by
    rw [b64EncodeNoPadBytes_length, hlen]
  unfold b64UrlEncodeNoPadBytes
  simp only [b64Pipeline]
  rw [map_urlRound_of_std _ hchars, hrlen]
  norm_num
  exact atobModel_encode_pad k hlen hb

/-- Helper: the base64 branch accepts the padded base64url encoding. -/
theorem b64Pipeline_urlPad (k : List Nat) (hlen : k.length = 32)
    (hb : ∀ b ∈ k, b < 256) : b64Pipeline (b64UrlEncodeBytes k) = some k := by
  have hrlen : (b64EncodeNoPadBytes k).length = 43 := by
    rw [b64EncodeNoPadBytes_length, hlen]
  have hlen2 : (b64EncodeNoPadBytes k ++ ['=']).length = 44 := by
    simp [hrlen]
  unfold b64UrlEncodeBytes
  rw [b64EncodeBytes_eq k hlen]
  simp only [b64Pipeline]
  rw [map_urlRound_of_std _ (b64EncodePad_chars k hb), hlen2]
  norm_num
  exact atobModel_encode_pad k hlen hb

/-- Helper: the normalized-material decoder succeeds through the base64
branch when the hex test fails and the base64 pipeline yields 32 bytes. -/
theorem keyBytesOfNormalized_of_pipeline (t : List Char) (k : List Nat)
    (hlen32 : k.length = 32) (htest : hexKeyTest t = false)
    (hp : b64Pipeline t = some k) : keyBytesOfNormalized t = .ok k := by
  unfold keyBytesOfNormalized
  rw [htest]
  simp only [Bool.false_eq_true, if_false]
  rw [hp]
  simp [hlen32]

/-- Helper: a clean (whitespace-free, quote-free, nonempty) key material
string decodes like its normalized form, also under one layer of quotes of
either kind and under arbitrary whitespace insertion. -/
theorem decode_clean_all (r : List Char) (k : List Nat)
    (hclean : ∀ c ∈ r, isJsWs c = false ∧ c ≠ dquoteChar ∧ c ≠ squoteChar)
    (hne : r ≠ []) (hkey : keyBytesOfNormalized r = .ok k) :
    decodeAes256KeyBytes r = .ok k ∧
    decodeAes256KeyBytes (dquoteChar :: r ++ [dquoteChar]) = .ok k ∧
    decodeAes256KeyBytes (squoteChar :: r ++ [squoteChar]) = .ok k ∧
    ∀ s, s.filter (fun c => !isJsWs c) = r → decodeAes256KeyBytes s = .ok k := by
  have hq : ∀ c ∈ r, c ≠ dquoteChar ∧ c ≠ squoteChar := fun c hc => (hclean c hc).2
  have hws : ∀ c ∈ r, isJsWs c = false := fun c hc => (hclean c hc).1
  refine ⟨?_, ?_, ?_, ?_⟩
  · rw [decodeAes256KeyBytes_of_filter
      (List.filter_eq_self.mpr (fun c hc => by simp [hws c hc])) hne hq, hkey]
  · rw [decodeAes256KeyBytes_quoted hws (Or.inl rfl), hkey]
  · rw [decodeAes256KeyBytes_quoted hws (Or.inr rfl), hkey]
  · intro s hs
    rw [decodeAes256KeyBytes_of_filter hs hne hq, hkey]

/-- C4: every representation of a 32-byte key — lowercase hex, 0x-prefixed
hex, standard base64 with and without padding, base64url with and without
padding — decodes to the same 32 bytes, and wrapping any of these in one
layer of matching double or single quotes, or inserting arbitrary
whitespace anywhere (including surrounding whitespace), does not change the
decoded result. -/
theorem decodeSymmetricKey_representations (k : List Nat) (hlen : k.length = 32)
    (hb : ∀ b ∈ k, b < 256) :
    decodeAes256KeyBytes (hexEncodeBytes k) = .ok k ∧
    decodeAes256KeyBytes ('0' :: 'x' :: hexEncodeBytes k) = .ok k ∧
    decodeAes256KeyBytes (b64EncodeBytes k) = .ok k ∧
    decodeAes256KeyBytes (b64EncodeNoPadBytes k) = .ok k ∧
    decodeAes256KeyBytes (b64UrlEncodeBytes k) = .ok k ∧
    decodeAes256KeyBytes (b64UrlEncodeNoPadBytes k) = .ok k ∧
    ∀ r ∈ [hexEncodeBytes k, '0' :: 'x' :: hexEncodeBytes k, b64EncodeBytes k,
        b64EncodeNoPadBytes k, b64UrlEncodeBytes k, b64UrlEncodeNoPadBytes k],
      decodeAes256KeyBytes (dquoteChar :: r ++ [dquoteChar]) = .ok k ∧
      decodeAes256KeyBytes (squoteChar :: r ++ [squoteChar]) = .ok k ∧
      ∀ s, s.filter (fun c => !isJsWs c) = r → decodeAes256KeyBytes s = .ok k := by
  have hexFacts : ∀ c ∈ hexEncodeBytes k,
      isJsWs c = false ∧ c ≠ dquoteChar ∧ c ≠ squoteChar := by
    intro c hc
    have h := hex_alphabet_facts c (hexEncodeBytes_mem k hb c hc)
    exact ⟨h.2.1, h.2.2.1, h.2.2.2.1⟩
  have hex0xFacts : ∀ c ∈ '0' :: 'x' :: hexEncodeBytes k,
      isJsWs c = false ∧ c ≠ dquoteChar ∧ c ≠ squoteChar := by
    intro c hc
    rcases List.mem_cons.mp hc with rfl | hc2
    · exact ⟨by decide, by decide, by decide⟩
    rcases List.mem_cons.mp hc2 with rfl | hc3
    · exact ⟨by decide, by decide, by decide⟩
    · exact hexFacts c hc3
  have stdFacts : ∀ c ∈ b64EncodeNoPadBytes k,
      isJsWs c = false ∧ c ≠ dquoteChar ∧ c ≠ squoteChar := by
    intro c hc
    obtain ⟨v, hv, rfl⟩ := b64EncodeNoPadBytes_chars k hb c hc
    have h := b64StdChar_facts v hv
    exact ⟨h.1, h.2.1, h.2.2.1⟩
  have padFacts : ∀ c ∈ b64EncodeNoPadBytes k ++ ['='],
      isJsWs c = false ∧ c ≠ dquoteChar ∧ c ≠ squoteChar := by
    intro c hc
    rcases List.mem_append.mp hc with hc | hc
    · exact stdFacts c hc
    · rcases List.mem_singleton.mp hc with rfl
      exact ⟨by decide, by decide, by decide⟩
  have urlNoPadFacts : ∀ c ∈ b64UrlEncodeNoPadBytes k,
      isJsWs c = false ∧ c ≠ dquoteChar ∧ c ≠ squoteChar := by
    intro c hc
    unfold b64UrlEncodeNoPadBytes at hc
    obtain ⟨d, hd, rfl⟩ := List.mem_map.mp hc
    obtain ⟨v, hv, rfl⟩ := b64EncodeNoPadBytes_chars k hb d hd
    have h := b64StdChar_facts v hv
    exact ⟨h.2.2.2.2.2.2.1, h.2.2.2.2.2.2.2.1, h.2.2.2.2.2.2.2.2⟩
  have urlPadFacts : ∀ c ∈ b64UrlEncodeBytes k,
      isJsWs c = false ∧ c ≠ dquoteChar ∧ c ≠ squoteChar := by
    intro c hc
    unfold b64UrlEncodeBytes at hc
    rw [b64EncodeBytes_eq k hlen] at hc
    obtain ⟨d, hd, rfl⟩ := List.mem_map.mp hc
    rcases List.mem_append.mp hd with hd2 | hd2
    · obtain ⟨v, hv, rfl⟩ := b64EncodeNoPadBytes_chars k hb d hd2
      have h := b64StdChar_facts v hv
      exact ⟨h.2.2.2.2.2.2.1, h.2.2.2.2.2.2.2.1, h.2.2.2.2.2.2.2.2⟩
    · rcases List.mem_singleton.mp hd2 with rfl
      exact ⟨by decide, by decide, by decide⟩
  have hrlen : (b64EncodeNoPadBytes k).length = 43 := by
    rw [b64EncodeNoPadBytes_length, hlen]
  have hexlen : (hexEncodeBytes k).length = 64 := by
    rw [hexEncodeBytes_length, hlen]
  have hexNe : hexEncodeBytes k ≠ [] := by
    intro h
    have := congrArg List.length h
    rw [hexlen] at this
    simp at this
  have noPadNe : b64EncodeNoPadBytes k ≠ [] := by
    intro h
    have := congrArg List.length h
    rw [hrlen] at this
    simp at this
  have padNe : b64EncodeNoPadBytes k ++ ['='] ≠ [] := by simp
  have urlNoPadNe : b64UrlEncodeNoPadBytes k ≠ [] := by
    unfold b64UrlEncodeNoPadBytes
    simp [noPadNe]
  have urlPadNe : b64UrlEncodeBytes k ≠ [] := by
    unfold b64UrlEncodeBytes
    rw [b64EncodeBytes_eq k hlen]
    simp
  have hkey1 := keyBytesOfNormalized_hex k hlen hb
  have hkey2 := keyBytesOfNormalized_hex0x k hlen hb
  have hkey3 : keyBytesOfNormalized (b64EncodeNoPadBytes k ++ ['=']) = .ok k := by
    rw [← b64EncodeBytes_eq k hlen]
    apply keyBytesOfNormalized_of_pipeline _ _ hlen
    · apply hexKeyTest_eq_false_of_length
      · rw [b64EncodeBytes_eq k hlen]
        simp [hrlen]
      · rw [b64EncodeBytes_eq k hlen]
        simp [hrlen]
    · exact b64Pipeline_encodePad k hlen hb
  have hkey4 : keyBytesOfNormalized (b64EncodeNoPadBytes k) = .ok k := by
    apply keyBytesOfNormalized_of_pipeline _ _ hlen
    · apply hexKeyTest_eq_false_of_length <;> rw [hrlen] <;> omega
    · exact b64Pipeline_encodeNoPad k hlen hb
  have hkey5 : keyBytesOfNormalized (b64UrlEncodeBytes k) = .ok k := by
    apply keyBytesOfNormalized_of_pipeline _ _ hlen
    · apply hexKeyTest_eq_false_of_length <;>
        · unfold b64UrlEncodeBytes
          rw [List.length_map, b64EncodeBytes_eq k hlen]
          simp [hrlen]
    · exact b64Pipeline_urlPad k hlen hb
  have hkey6 : keyBytesOfNormalized (b64UrlEncodeNoPadBytes k) = .ok k := by
    apply keyBytesOfNormalized_of_pipeline _ _ hlen
    · apply hexKeyTest_eq_false_of_length <;>
        · unfold b64UrlEncodeNoPadBytes
          rw [List.length_map, hrlen]
          omega
    · exact b64Pipeline_urlNoPad k hlen hb
  rw [b64EncodeBytes_eq k hlen]
  have h1 := decode_clean_all _ k hexFacts hexNe hkey1
  have h2 := decode_clean_all _ k hex0xFacts (by simp) hkey2
  have h3 := decode_clean_all _ k padFacts padNe hkey3
  have h4 := decode_clean_all _ k stdFacts noPadNe hkey4
  have h5 := decode_clean_all _ k urlPadFacts urlPadNe hkey5
  have h6 := decode_clean_all _ k urlNoPadFacts urlNoPadNe hkey6
  refine ⟨h1.1, h2.1, h3.1, h4.1, h5.1, h6.1, ?_⟩
  intro r hr
  simp only [List.mem_cons, List.not_mem_nil, or_false] at hr
  rcases hr with rfl | rfl | rfl | rfl | rfl | rfl
  · exact h1.2
  · exact h2.2
  · exact h3.2
  · exact h4.2
  · exact h5.2
  · exact h6.2

/-- C4 witness: the all-zero 32-byte key, decoded from its hex
representation. -/
theorem decodeSymmetricKey_representations_witness :
    (List.replicate 32 0).length = 32 ∧
    (∀ b ∈ List.replicate 32 0, b < 256) ∧
    decodeAes256KeyBytes (hexEncodeBytes (List.replicate 32 0)) =
      .ok (List.replicate 32 0) :=
  ⟨by decide, by decide,
    (decodeSymmetricKey_representations (List.replicate 32 0) (by decide) (by decide)).1⟩

/-- Helper: pairwise hex decoding halves the length. -/
theorem hexPairsToBytes_length : ∀ cs : List Char,
    (hexPairsToBytes cs).length = cs.length / 2
  | [] => rfl
  | [_] => by simp [hexPairsToBytes]
  | c1 :: c2 :: rest => by
      simp only [hexPairsToBytes, List.length_cons, hexPairsToBytes_length rest]
      omega

/-- Helper: a successful normalized-material decode always yields exactly
32 bytes. -/
theorem keyBytesOfNormalized_ok_length (t : List Char) (k : List Nat)
    (h : keyBytesOfNormalized t = .ok k) : k.length = 32 := by
  unfold keyBytesOfNormalized at h
  by_cases htest : hexKeyTest t
  · rw [if_pos htest] at h
    simp only [Except.ok.injEq] at h
    subst h
    rw [hexPairsToBytes_length]
    unfold hexKeyTest at htest
    have := (Bool.and_eq_true_iff.mp htest).1
    have hl : (strip0x t).length = 64 := by
      simpa using this
    omega
  · rw [if_neg htest] at h
    cases hp : b64Pipeline t with
    | none => rw [hp] at h; simp at h
    | some bytes =>
        rw [hp] at h
        by_cases hl : bytes.length = 32
        · simp only [hl, if_true, Except.ok.injEq] at h
          subst h
          exact hl
        · simp [hl] at h

/-- Helper: the normalized-material decode fails exactly when the material
is neither hex-shaped nor base64 decodable to exactly 32 bytes. -/
theorem keyBytesOfNormalized_error_iff (t : List Char) :
    keyBytesOfNormalized t = .error .configError ↔
      (hexKeyTest t = false ∧
        ∀ bytes, b64Pipeline t = some bytes → bytes.length ≠ 32) := by
  unfold keyBytesOfNormalized
  by_cases htest : hexKeyTest t
  · simp [htest]
  · rw [if_neg htest]
    rw [Bool.not_eq_true] at htest
    cases hp : b64Pipeline t with
    | none => simp [htest, hp]
    | some bytes =>
        by_cases hl : bytes.length = 32
        · simp [htest, hp, hl]
        · simp [htest, hp, hl]

/-- C5: `decodeSymmetricKey` fails with a ConfigError on input that trims
to the empty string; a successful decode always yields exactly 32 bytes;
and for non-empty input, failure happens precisely when the normalized
material is neither 64 hex characters (optionally 0x-prefixed) nor valid
base64/base64url decoding to exactly 32 bytes. -/
theorem decodeSymmetricKey_failure_spec (s : List Char) :
    (jsTrim s = [] → decodeAes256KeyBytes s = .error .configError) ∧
    (∀ k, decodeAes256KeyBytes s = .ok k → k.length = 32) ∧
    (jsTrim s ≠ [] →
      (decodeAes256KeyBytes s = .error .configError ↔
        (hexKeyTest (normalizeKeyMaterial s) = false ∧
          ∀ bytes, b64Pipeline (normalizeKeyMaterial s) = some bytes →
            bytes.length ≠ 32))) := by
  refine ⟨?_, ?_, ?_⟩
  · intro h
    simp [decodeAes256KeyBytes, h]
  · intro k hk
    unfold decodeAes256KeyBytes at hk
    by_cases hemp : (jsTrim s).isEmpty
    · rw [if_pos hemp] at hk
      simp at hk
    · rw [if_neg hemp] at hk
      exact keyBytesOfNormalized_ok_length _ k hk
  · intro hne
    unfold decodeAes256KeyBytes
    rw [if_neg (by simpa [List.isEmpty_iff] using hne)]
    exact keyBytesOfNormalized_error_iff _

/-- C5 witness: the empty string trims to the empty string and is rejected
with a ConfigError. -/
theorem decodeSymmetricKey_failure_spec_witness :
    jsTrim [] = ([] : List Char) ∧
    decodeAes256KeyBytes [] = .error .configError :=
  ⟨rfl, (decodeSymmetricKey_failure_spec []).1 rfl⟩

/-- Helper: decoding an encoded unicode scalar value (not a surrogate)
recovers it and continues with the remaining bytes. -/
theorem utf8DecodeAux_encodeChar (c : Nat) (rest : List Nat)
    (h1 : c < 1114112) (h2 : ¬(55296 ≤ c ∧ c < 57344)) :
    utf8DecodeAux (utf8EncodeChar c ++ rest) = c :: utf8DecodeAux rest := by
  by_cases hc1 : c < 128
  · simp only [utf8EncodeChar, if_pos hc1, List.cons_append, List.nil_append]
    rw [utf8DecodeAux.eq_def]
    dsimp only
    rw [if_pos hc1]
  by_cases hc2 : c < 2048
  · have e0 : ¬(192 + c / 64 < 128) := by omega
    have eA : 194 ≤ 192 + c / 64 ∧ 192 + c / 64 ≤ 223 := by omega
    have eB : 128 ≤ 128 + c % 64 ∧ 128 + c % 64 ≤ 191 := by omega
    simp only [utf8EncodeChar, if_neg hc1, if_pos hc2, List.cons_append,
      List.nil_append]
    rw [utf8DecodeAux.eq_def]
    dsimp only
    rw [if_neg e0, if_pos eA, if_pos eB]
    refine congrArg (fun n => n :: utf8DecodeAux rest) ?_
    omega
  by_cases hc3 : c < 65536
  · have e0 : ¬(224 + c / 4096 < 128) := by omega
    have eA : ¬(194 ≤ 224 + c / 4096 ∧ 224 + c / 4096 ≤ 223) := by omega
    have eB : 224 ≤ 224 + c / 4096 ∧ 224 + c / 4096 ≤ 239 := by omega
    have eC : (if 224 + c / 4096 = 224 then 160 else 128) ≤ 128 + c / 64 % 64 ∧
        128 + c / 64 % 64 ≤ (if 224 + c / 4096 = 237 then 159 else 191) := by
      split_ifs <;> omega
    have eD : 128 ≤ 128 + c % 64 ∧ 128 + c % 64 ≤ 191 := by omega
    simp only [utf8EncodeChar, if_neg hc1, if_neg hc2, if_pos hc3,
      List.cons_append, List.nil_append]
    rw [utf8DecodeAux.eq_def]
    dsimp only
    rw [if_neg e0, if_neg eA, if_pos eB, if_pos eC, if_pos eD]
    refine congrArg (fun n => n :: utf8DecodeAux rest) ?_
    omega
  · have e0 : ¬(240 + c / 262144 < 128) := by omega
    have eA : ¬(194 ≤ 240 + c / 262144 ∧ 240 + c / 262144 ≤ 223) := by omega
    have eB : ¬(224 ≤ 240 + c / 262144 ∧ 240 + c / 262144 ≤ 239) := by omega
    have eC : 240 ≤ 240 + c / 262144 ∧ 240 + c / 262144 ≤ 244 := by omega
    have eD : (if 240 + c / 262144 = 240 then 144 else 128) ≤ 128 + c / 4096 % 64 ∧
        128 + c / 4096 % 64 ≤ (if 240 + c / 262144 = 244 then 143 else 191) := by
      split_ifs <;> omega
    have eE : 128 ≤ 128 + c / 64 % 64 ∧ 128 + c / 64 % 64 ≤ 191 := by omega
    have eF : 128 ≤ 128 + c % 64 ∧ 128 + c % 64 ≤ 191 := by omega
    simp only [utf8EncodeChar, if_neg hc1, if_neg hc2, if_neg hc3,
      List.cons_append, List.nil_append]
    rw [utf8DecodeAux.eq_def]
    dsimp only
    rw [if_neg e0, if_neg eA, if_neg eB, if_pos eC, if_pos eD, if_pos eE, if_pos eF]
    refine congrArg (fun n => n :: utf8DecodeAux rest) ?_
    omega

/-- Helper: decoding the UTF-8 encoding of a string recovers the string. -/
theorem utf8DecodeChars_utf8Encode (s : List Char) :
    utf8DecodeChars (utf8Encode s) = s := by
  induction s with
  | nil => simp [utf8DecodeChars, utf8Encode, utf8DecodeAux]
  | cons c t ih =>
      have hval : c.toNat < 1114112 ∧ ¬(55296 ≤ c.toNat ∧ c.toNat < 57344) := by
        have h := c.valid
        have he : c.toNat = c.val.toNat := rfl
        rcases h with h | h
        · constructor <;> omega
        · constructor <;> omega
      unfold utf8DecodeChars utf8Encode
      simp only [List.flatMap_cons]
      rw [show (t.flatMap fun c => utf8EncodeChar c.toNat) = utf8Encode t from rfl,
        utf8DecodeAux_encodeChar c.toNat (utf8Encode t) hval.1 hval.2]
      simp only [List.map_cons, Char.ofNat_toNat]
      unfold utf8DecodeChars at ih
      rw [ih]

/-- Helper: a forced block always has 16 bytes. -/
theorem fix16_length (l : List Nat) : (fix16 l).length = 16 := by
  simp [fix16]

/-- Helper: the big-endian representation of a 128-bit value has 16 bytes. -/
theorem natToBytes16_length (n : Nat) : (natToBytes16 n).length = 16 := by
  simp [natToBytes16]

/-- Helper: byte-wise xor has the length of the shorter operand. -/
theorem xorBytes_length (a b : List Nat) :
    (xorBytes a b).length = min a.length b.length := by
  simp [xorBytes]

/-- Helper: the CTR keystream has exactly the requested length. -/
theorem gcmKeystream_length (E : List Nat → List Nat) (nonce : List Nat) (n : Nat) :
    (gcmKeystream E nonce n).length = n := by
  unfold gcmKeystream
  rw [List.length_take]
  have hmap : ((List.range (n / 16 + 1)).flatMap
      (fun i => fix16 (E (nonce ++ be32 (2 + i))))).length = (n / 16 + 1) * 16 := by
    rw [List.length_flatMap]
    simp only [Function.comp_def]
    have : ((List.range (n / 16 + 1)).map
        (fun i => (fix16 (E (nonce ++ be32 (2 + i)))).length)) =
        List.replicate (n / 16 + 1) 16 := by
      rw [List.eq_replicate_iff]
      constructor
      · simp
      · intro x hx
        obtain ⟨i, _, rfl⟩ := List.mem_map.mp hx
        exact fix16_length _
    rw [this, List.sum_replicate]
    simp [Nat.mul_comm]
  rw [hmap]
  omega

/-- Helper: the GCM tag always has 16 bytes. -/
theorem gcmTag_length (E : List Nat → List Nat) (nonce ct : List Nat) :
    (gcmTag E nonce ct).length = 16 := by
  unfold gcmTag
  rw [xorBytes_length, fix16_length, natToBytes16_length]
  omega

/-- Helper: xoring twice with the same keystream is the identity. -/
theorem xorBytes_cancel : ∀ (a b : List Nat), a.length ≤ b.length →
    xorBytes (xorBytes a b) b = a
  | [], _, _ => rfl
  | _ :: _, [], h => by simp at h
  | x :: a, y :: b, h => by
      simp only [xorBytes, List.zipWith_cons_cons]
      rw [show x ^^^ y ^^^ y = x by rw [Nat.xor_assoc, Nat.xor_self, Nat.xor_zero]]
      exact congrArg (x :: ·) (xorBytes_cancel a b (by simpa using h))

/-- Helper: AES-GCM opening inverts sealing for any block primitive. -/
theorem aesGcmOpen_aesGcmSeal (E : List Nat → List Nat) (nonce pt : List Nat) :
    aesGcmOpen E nonce (aesGcmSeal E nonce pt) = some pt := by
  have hks : (gcmKeystream E nonce pt.length).length = pt.length :=
    gcmKeystream_length E nonce pt.length
  have hct : (xorBytes pt (gcmKeystream E nonce pt.length)).length = pt.length := by
    rw [xorBytes_length, hks]
    omega
  have htag : (gcmTag E nonce (xorBytes pt (gcmKeystream E nonce pt.length))).length = 16 :=
    gcmTag_length E nonce _
  have hdata : (xorBytes pt (gcmKeystream E nonce pt.length) ++
      gcmTag E nonce (xorBytes pt (gcmKeystream E nonce pt.length))).length =
      pt.length + 16 := by
    rw [List.length_append, hct, htag]
  unfold aesGcmOpen aesGcmSeal
  rw [hdata]
  rw [if_neg (by omega)]
  have hsub : pt.length + 16 - 16 = pt.length := by omega
  have htake : (xorBytes pt (gcmKeystream E nonce pt.length) ++
      gcmTag E nonce (xorBytes pt (gcmKeystream E nonce pt.length))).take (pt.length + 16 - 16) =
      xorBytes pt (gcmKeystream E nonce pt.length) := by
    rw [hsub]
    exact List.take_left' hct
  have hdrop : (xorBytes pt (gcmKeystream E nonce pt.length) ++
      gcmTag E nonce (xorBytes pt (gcmKeystream E nonce pt.length))).drop (pt.length + 16 - 16) =
      gcmTag E nonce (xorBytes pt (gcmKeystream E nonce pt.length)) := by
    rw [hsub]
    exact List.drop_left' hct
  rw [htake, hdrop, if_pos rfl, hct]
  rw [xorBytes_cancel pt (gcmKeystream E nonce pt.length) (by omega)]

/-- Helper: AES-GCM opening fails on data shorter than the tag. -/
theorem aesGcmOpen_eq_none_of_short (E : List Nat → List Nat) (nonce data : List Nat)
    (h : data.length < 16) : aesGcmOpen E nonce data = none := by
  unfold aesGcmOpen
  rw [if_pos h]

/-- Helper: AES-GCM opening fails when the recomputed tag differs. -/
theorem aesGcmOpen_eq_none_of_tag (E : List Nat → List Nat) (nonce data : List Nat)
    (h16 : ¬data.length < 16)
    (h : gcmTag E nonce (data.take (data.length - 16)) ≠ data.drop (data.length - 16)) :
    aesGcmOpen E nonce data = none := by
  unfold aesGcmOpen
  rw [if_neg h16, if_neg h]

/-- Helper: a successful AES-GCM opening implies the tag verified. -/
theorem aesGcmOpen_some_inv (E : List Nat → List Nat) (nonce data pt : List Nat)
    (h : aesGcmOpen E nonce data = some pt) :
    ¬data.length < 16 ∧
    gcmTag E nonce (data.take (data.length - 16)) = data.drop (data.length - 16) := by
  unfold aesGcmOpen at h
  by_cases h1 : data.length < 16
  · rw [if_pos h1] at h
    simp at h
  · rw [if_neg h1] at h
    by_cases h2 : gcmTag E nonce (data.take (data.length - 16)) =
        data.drop (data.length - 16)
    · exact ⟨h1, h2⟩
    · rw [if_neg h2] at h
      simp at h

/-- Helper: decrypt under a validly decoding key is the AES-GCM opening of
the 12-byte split, decoded as UTF-8. -/
theorem decrypt_eq (E : List Nat → List Nat → List Nat) (keyMat : List Char)
    (k data : List Nat) (hk : decodeAes256KeyBytes keyMat = .ok k) :
    decrypt E data keyMat =
      (match aesGcmOpen (E k) (data.take 12) (data.drop 12) with
       | none => .error .decryptionError
       | some pt => .ok (String.mk (utf8DecodeChars pt))) := by
  unfold decrypt
  rw [hk]

/-- C1: for every key material that decodes to a 32-byte key, every
12-byte nonce and every plaintext string (including the empty string and
multi-byte text), decrypting the output of `encrypt` with the same key
material returns the original plaintext exactly, whatever the AES block
primitive. -/
theorem encrypt_decrypt_roundtrip (E : List Nat → List Nat → List Nat)
    (keyMat : List Char) (k nonce : List Nat) (s : String) (out : List Nat)
    (hk : decodeAes256KeyBytes keyMat = .ok k) (hn : nonce.length = 12)
    (he : encrypt E nonce s keyMat = .ok out) :
    decrypt E out keyMat = .ok s := by
  unfold encrypt at he
  rw [hk] at he
  simp only [Except.ok.injEq] at he
  subst he
  rw [decrypt_eq E keyMat k _ hk, List.take_left' hn, List.drop_left' hn,
    aesGcmOpen_aesGcmSeal]
  dsimp only
  rw [utf8DecodeChars_utf8Encode]

/-- C1 witness: a two-character plaintext containing a multi-byte character,
encrypted under the all-zero hex key with a constant block primitive. -/
theorem encrypt_decrypt_roundtrip_witness :
    decodeAes256KeyBytes (hexEncodeBytes (List.replicate 32 0)) =
      .ok (List.replicate 32 0) ∧
    (List.replicate 12 0).length = 12 ∧
    decrypt (fun _ _ => ([] : List Nat))
      (List.replicate 12 0 ++
        aesGcmSeal ((fun (_ _ : List Nat) => ([] : List Nat)) (List.replicate 32 0))
          (List.replicate 12 0)
          (utf8Encode (String.mk [Char.ofNat 104, Char.ofNat 8364]).data))
      (hexEncodeBytes (List.replicate 32 0)) =
      .ok (String.mk [Char.ofNat 104, Char.ofNat 8364]) :=
  ⟨by rfl, by rfl,
    encrypt_decrypt_roundtrip (fun _ _ => ([] : List Nat))
      (hexEncodeBytes (List.replicate 32 0)) (List.replicate 32 0)
      (List.replicate 12 0) (String.mk [Char.ofNat 104, Char.ofNat 8364]) _
      (by rfl) (by rfl) (by rfl)⟩

/-- C8: `encrypt` with a validly decoding key returns exactly
`nonce || ciphertext-with-tag`: the first 12 bytes of the output are the
generated nonce, the remainder is the AES-GCM ciphertext with its tag, and
the output length is 12 plus the ciphertext-with-tag length. -/
theorem encrypt_structure (E : List Nat → List Nat → List Nat)
    (keyMat : List Char) (k nonce : List Nat) (s : String)
    (hk : decodeAes256KeyBytes keyMat = .ok k) (hn : nonce.length = 12) :
    encrypt E nonce s keyMat =
      .ok (nonce ++ aesGcmSeal (E k) nonce (utf8Encode s.data)) ∧
    (nonce ++ aesGcmSeal (E k) nonce (utf8Encode s.data)).take 12 = nonce ∧
    (nonce ++ aesGcmSeal (E k) nonce (utf8Encode s.data)).drop 12 =
      aesGcmSeal (E k) nonce (utf8Encode s.data) ∧
    (nonce ++ aesGcmSeal (E k) nonce (utf8Encode s.data)).length =
      12 + (aesGcmSeal (E k) nonce (utf8Encode s.data)).length := by
  refine ⟨?_, List.take_left' hn, List.drop_left' hn, ?_⟩
  · unfold encrypt
    rw [hk]
  · rw [List.length_append, hn]

/-- C8 witness: a one-character plaintext under the all-zero hex key. -/
theorem encrypt_structure_witness :
    encrypt (fun _ _ => ([] : List Nat)) (List.replicate 12 0)
      (String.mk [Char.ofNat 97]) (hexEncodeBytes (List.replicate 32 0)) =
      .ok (List.replicate 12 0 ++
        aesGcmSeal ((fun (_ _ : List Nat) => ([] : List Nat)) (List.replicate 32 0))
          (List.replicate 12 0) (utf8Encode (String.mk [Char.ofNat 97]).data)) :=
  (encrypt_structure (fun _ _ => ([] : List Nat))
    (hexEncodeBytes (List.replicate 32 0)) (List.replicate 32 0)
    (List.replicate 12 0) (String.mk [Char.ofNat 97]) (by rfl) (by rfl)).1

/-- C7: under a validly decoding key, `decrypt` fails with a
DecryptionError on every blob shorter than the 12-byte nonce (and more
generally whenever fewer than 16 bytes follow the nonce), fails whenever
the recomputed authentication tag differs from the stored one (tampered
ciphertext or a different key both surface here), and returns a plaintext
only when the tag verifies. -/
theorem decrypt_failure_spec (E : List Nat → List Nat → List Nat)
    (keyMat : List Char) (k data : List Nat)
    (hk : decodeAes256KeyBytes keyMat = .ok k) :
    (data.length < 12 → decrypt E data keyMat = .error .decryptionError) ∧
    ((data.drop 12).length < 16 → decrypt E data keyMat = .error .decryptionError) ∧
    (gcmTag (E k) (data.take 12)
        ((data.drop 12).take ((data.drop 12).length - 16)) ≠
        (data.drop 12).drop ((data.drop 12).length - 16) →
      decrypt E data keyMat = .error .decryptionError) ∧
    (∀ pt, decrypt E data keyMat = .ok pt →
      16 ≤ (data.drop 12).length ∧
      gcmTag (E k) (data.take 12)
          ((data.drop 12).take ((data.drop 12).length - 16)) =
        (data.drop 12).drop ((data.drop 12).length - 16)) := by
  refine ⟨?_, ?_, ?_, ?_⟩
  · intro h
    rw [decrypt_eq E keyMat k data hk,
      aesGcmOpen_eq_none_of_short _ _ _ (by simp; omega)]
  · intro h
    rw [decrypt_eq E keyMat k data hk, aesGcmOpen_eq_none_of_short _ _ _ h]
  · intro h
    by_cases h16 : (data.drop 12).length < 16
    · rw [decrypt_eq E keyMat k data hk, aesGcmOpen_eq_none_of_short _ _ _ h16]
    · rw [decrypt_eq E keyMat k data hk, aesGcmOpen_eq_none_of_tag _ _ _ h16 h]
  · intro pt h
    rw [decrypt_eq E keyMat k data hk] at h
    cases hopen : aesGcmOpen (E k) (data.take 12) (data.drop 12) with
    | none => rw [hopen] at h; simp at h
    | some q =>
        have hinv := aesGcmOpen_some_inv _ _ _ _ hopen
        exact ⟨by omega, hinv.2⟩

/-- C7 witness: the empty blob (shorter than the nonce) is rejected with a
DecryptionError under the all-zero hex key. -/
theorem decrypt_failure_spec_witness :
    ([] : List Nat).length < 12 ∧
    decrypt (fun _ _ => ([] : List Nat)) [] (hexEncodeBytes (List.replicate 32 0)) =
      .error .decryptionError :=
  ⟨by decide,
    (decrypt_failure_spec (fun _ _ => ([] : List Nat))
      (hexEncodeBytes (List.replicate 32 0)) (List.replicate 32 0) []
      (by rfl)).1 (by decide)⟩

end MCPNexus
